import Mathlib

/-!
Verification development for the swh.model git hash-index engine
(src/swh/model/git.py): the bottom-up tree walker
`walk_and_compute_sha1_from_directory`, the cascading removal helper
`__remove_paths_from_objects`, the `commonpath` helper, the in-memory
ancestor recompute `recompute_sha1_in_memory` and the incremental updater
`update_checksums_from`, shallowly embedded over an explicit filesystem
model.  Python byte strings are lists of characters, Python dictionaries
are association lists with dict semantics, filesystem access primitives
are evaluated against an explicit finite disk, and raised Python
exceptions are `Except` errors.  Unbounded recursion in the Python source
(the removal cascade and the ancestor loop) is embedded with explicit
fuel, where exhausting every fuel corresponds to divergence of the
original program.
-/

namespace SwhGit

/-- Python byte strings are modelled as lists of characters. -/
abbrev Bytes := List Char

/-- The path separator used by the posixpath operations in the source. -/
def sepC : Char := '/'

/-- Shorthand turning a string literal into `Bytes`. -/
def pb (x : String) : Bytes := x.data

/-- The sentinel key `ROOT_TREE_KEY = b''` (git.py line 14). -/
def ROOT_TREE_KEY : Bytes := []

/-- `GitType` enumeration (git.py lines 17-24); only the constructors the
core engine manipulates are listed, the remaining ones are never built by
the embedded functions. -/
inductive GitType where
  | BLOB
  | TREE
  | COMM
  | RELE
  | REFS
deriving DecidableEq, Repr

/-- `GitPerm` enumeration (git.py lines 27-31). -/
inductive GitPerm where
  | BLOB
  | TREE
  | EXEC
  | LINK
deriving DecidableEq, Repr

/-- `int(perm.value, 8)`: the octal decoding of each permission literal,
as computed by `compute_directory_git_sha1` (git.py line 56). -/
def permVal : GitPerm → Nat
  | .BLOB => 33188
  | .TREE => 16384
  | .EXEC => 33261
  | .LINK => 40960

/-- Python exceptions raised (or propagated) by the embedded functions. -/
inductive PyErr where
  | keyError (key : Bytes)
  | indexError
  | valueErrorEmptySeq
  | valueErrorMixedPaths
  | osError (path : Bytes)
deriving Repr

/-- Modelled from the spec: canonical object digests.  The per-object
serialization and hash functions (`swh.model.hashutil`,
`swh.model.identifiers`) are external to the core (spec sections 1 and 6)
and are not under src/; following the spec they are pure and
deterministic, so they are embedded as an injective constructor of their
structured input: a blob digest is determined by the content bytes and a
tree digest by the canonical list of entry descriptions
(name, numeric permission, target digest, dir-or-file discriminator). -/
inductive Digest where
  | blob (content : Bytes)
  | tree (entries : List (Bytes × Nat × Digest × Bool))

/-- One directory entry record, the dictionary built by the metadata
builders (git.py lines 109-186): name, permission class, git type, source
path and canonical digest.  The auxiliary content digests and lengths that
`hashutil` adds for blobs play no role in the engine and are omitted. -/
structure Entry where
  name : Bytes
  perms : GitPerm
  type : GitType
  path : Bytes
  sha1_git : Digest

/-- The Hash Index: the dictionary returned by the walker, path to list of
entries, with insertion-ordered dict semantics. -/
abbrev Index := List (Bytes × List Entry)

/-- Dictionary lookup `d[k]` / `d.get(k)`. -/
def lookupIdx : Index → Bytes → Option (List Entry)
  | [], _ => none
  | (k, v) :: rest, p => if k == p then some v else lookupIdx rest p

/-- Dictionary assignment `d[k] = v`: replace the first binding in place,
or append a new one (Python dicts preserve insertion order). -/
def insertIdx : Index → Bytes → List Entry → Index
  | [], k, v => [(k, v)]
  | (k', v') :: rest, k, v =>
      if k' == k then (k, v) :: rest else (k', v') :: insertIdx rest k v

/-- Dictionary removal `d.pop(k, None)` (the removed value is read
separately via `lookupIdx` before popping). -/
def popIdx (idx : Index) (k : Bytes) : Index :=
  idx.filter (fun pr => ¬(pr.1 == k))

/-- `objects.update(hashes)`: merge, later values win. -/
def updateIdx (idx new : Index) : Index :=
  new.foldl (fun acc pr => insertIdx acc pr.1 pr.2) idx

/-- Key membership test. -/
def hasKey (idx : Index) (k : Bytes) : Bool :=
  (lookupIdx idx k).isSome

/-- Python truthiness of `d.get(k, None)`: `False` for a missing key and
for an empty entry list. -/
def truthyLookup (idx : Index) (k : Bytes) : Bool :=
  match lookupIdx idx k with
  | some (_ :: _) => true
  | _ => false

/-! ### Path operations (posixpath on bytes, as used by the source) -/

/-- `p.rstrip(b'/')`. -/
def rstripSep (p : Bytes) : Bytes :=
  (p.reverse.dropWhile (· == sepC)).reverse

/-- The position just after the last separator: `p.rfind(b'/') + 1`,
`0` when there is no separator. -/
def lastSepPos (p : Bytes) : Nat :=
  match p.reverse.findIdx? (· == sepC) with
  | some j => p.length - j
  | none => 0

/-- `os.path.dirname` for posix byte paths: everything up to the last
separator, with trailing separators stripped unless the head is all
separators. -/
def dirname (p : Bytes) : Bytes :=
  let head := p.take (lastSepPos p)
  if head ≠ [] ∧ ¬(head.all (· == sepC)) then rstripSep head else head

/-- `os.path.basename`: everything after the last separator. -/
def basename (p : Bytes) : Bytes :=
  p.drop (lastSepPos p)

/-- `os.path.join` for posix byte paths, two-argument form. -/
def join (a b : Bytes) : Bytes :=
  if b.take 1 == [sepC] then b
  else if a == [] ∨ a.getLast? == some sepC then a ++ b
  else a ++ sepC :: b

/-- `rootdir.rstrip(b'/')` applied only when the path ends with a
separator, as in git.py lines 228-229 and 464-465. -/
def stripTrailingSep (p : Bytes) : Bytes :=
  if p.getLast? == some sepC then rstripSep p else p

/-! ### Except-valued helpers

The source iterates with `for` loops whose bodies can raise; these two
combinators embed such loops with error propagation. -/

def mapE (f : α → Except PyErr β) : List α → Except PyErr (List β)
  | [] => .ok []
  | a :: as =>
    match f a with
    | .error e => .error e
    | .ok b =>
      match mapE f as with
      | .error e => .error e
      | .ok bs => .ok (b :: bs)

def foldE (f : σ → α → Except PyErr σ) : σ → List α → Except PyErr σ
  | s, [] => .ok s
  | s, a :: as =>
    match f s a with
    | .error e => .error e
    | .ok s' => foldE f s' as

/-! ### Filesystem model

The filesystem collaborator (directory listing, symlink classification,
content and symlink-target reads, executable-bit check) is external to the
core (spec sections 1 and 6).  The disk is a finite map from absolute path
to node kind; directory listings are derived from it, and `os.walk` never
follows symlinks (`followlinks` defaults to `False`), so a symlink is
always classified as a non-directory listing entry. -/

inductive FSKind where
  | file (content : Bytes) (isExec : Bool)
  | link (target : Bytes)
  | dir
deriving DecidableEq, Repr

abbrev Disk := List (Bytes × FSKind)

def lookupDisk : Disk → Bytes → Option FSKind
  | [], _ => none
  | (p, k) :: rest, q => if p == q then some k else lookupDisk rest q

/-- `os.path.islink`. -/
def isLinkAt (disk : Disk) (p : Bytes) : Bool :=
  match lookupDisk disk p with
  | some (.link _) => true
  | _ => false

def isDirKind : FSKind → Bool
  | .dir => true
  | _ => false

/-- The listing of a directory: the disk entries directly inside it. -/
def childEntries (disk : Disk) (dp : Bytes) : Disk :=
  disk.filter (fun pr => dirname pr.1 == dp && ¬(pr.1 == dp))

/-- An `os.walk` triple: directory path, subdirectory names, file names
(symlinks are listed among the file names, see the model note above). -/
abbrev Triple := Bytes × List Bytes × List Bytes

/-- `os.walk(rootdir, topdown=False)`: bottom-up triples, every
subdirectory's subtree yielded before its parent.  The fuel argument only
bounds the recursion depth; since each child path is strictly longer than
its directory's path, any fuel larger than the longest path on the disk
is never exhausted. -/
def walkPost : Nat → Disk → Bytes → List Triple
  | 0, _, _ => []
  | fuel + 1, disk, dp =>
    match lookupDisk disk dp with
    | some .dir =>
      let ch := childEntries disk dp
      let dirs := ch.filter (fun pr => isDirKind pr.2)
      (dirs.flatMap (fun pr => walkPost fuel disk pr.1))
        ++ [(dp, dirs.map (fun pr => basename pr.1),
             (ch.filter (fun pr => ¬ isDirKind pr.2)).map (fun pr => basename pr.1))]
    | _ => []

/-- Sufficient walk fuel for a given disk. -/
def fuelOf (disk : Disk) : Nat :=
  disk.foldl (fun m pr => max m pr.1.length) 0 + 1

/-! ### Entry metadata builders (git.py lines 109-186) -/

/-- Modelled from the spec for the digest part: `hashutil.hash_data` over
the link target plus the literal fields of `compute_link_metadata`
(git.py lines 109-136).  `os.readlink` on a non-link raises `OSError`. -/
def compute_link_metadata (disk : Disk) (linkpath : Bytes) : Except PyErr Entry :=
  match lookupDisk disk linkpath with
  | some (.link target) =>
    .ok { name := basename linkpath, perms := .LINK, type := .BLOB,
          path := linkpath, sha1_git := .blob target }
  | _ => .error (.osError linkpath)

/-- Modelled from the spec for the digest part: `hashutil.hash_path` over
the file content plus the literal fields of `compute_blob_metadata`
(git.py lines 139-162); the permission class comes from the executable
bit. -/
def compute_blob_metadata (disk : Disk) (filepath : Bytes) : Except PyErr Entry :=
  match lookupDisk disk filepath with
  | some (.file content isExec) =>
    .ok { name := basename filepath,
          perms := if isExec then .EXEC else .BLOB, type := .BLOB,
          path := filepath, sha1_git := .blob content }
  | _ => .error (.osError filepath)

/-- Modelled from the spec: `identifiers.directory_identifier`, the
external tree canonicalization (spec section 6), embedded as the injective
tree digest of the structured entry list it is given. -/
def directory_identifier (entries : List (Bytes × Nat × Digest × Bool)) : Digest :=
  .tree entries

/-- `compute_directory_git_sha1` (git.py lines 34-63): reads
`hashes[dirpath]` (a `KeyError` when absent) and feeds the canonical
description of every entry to the external tree identifier. -/
def compute_directory_git_sha1 (dirpath : Bytes) (hashes : Index) :
    Except PyErr Digest :=
  match lookupIdx hashes dirpath with
  | none => .error (.keyError dirpath)
  | some entries =>
    .ok (directory_identifier (entries.map
      (fun e => (e.name, permVal e.perms, e.sha1_git, e.perms == GitPerm.TREE))))

/-- `compute_tree_metadata` (git.py lines 165-186). -/
def compute_tree_metadata (dirName : Bytes) (ls_hashes : Index) :
    Except PyErr Entry :=
  match compute_directory_git_sha1 dirName ls_hashes with
  | .error e => .error e
  | .ok d =>
    .ok { name := basename dirName, perms := .TREE, type := .TREE,
          path := dirName, sha1_git := d }

/-! ### The tree walker (git.py lines 189-294) -/

/-- `filtfn` (git.py lines 231-234): keep the directory names whose joined
path satisfies the predicate. -/
def filtfn (dir_ok_fn : Bytes → Bool) (dirpath : Bytes) (dirnames : List Bytes) :
    List Bytes :=
  dirnames.filter (fun dn => dir_ok_fn (join dirpath dn))

/-- `gen_dir` (git.py lines 247-249): the bottom-up triples whose
directory path satisfies the predicate, with their subdirectory names
filtered by `filtfn`. -/
def genDir (disk : Disk) (dir_ok_fn : Bytes → Bool) (rootdir : Bytes) :
    List Triple :=
  (walkPost (fuelOf disk) disk rootdir).filterMap
    (fun t => if dir_ok_fn t.1 then some (t.1, filtfn dir_ok_fn t.1 t.2.1, t.2.2)
              else none)

/-- One pruning round for the `remove_empty_folder` pre-pass: delete from
the disk every directory in the walked scope that satisfies the predicate
and has no children left. -/
def pruneRound (dir_ok_fn : Bytes → Bool) (rootdir : Bytes) (disk : Disk) : Disk :=
  disk.filter (fun pr =>
    ¬(isDirKind pr.2
      && (pr.1 == rootdir || (rootdir ++ [sepC]).isPrefixOf pr.1)
      && dir_ok_fn pr.1
      && (childEntries disk pr.1).isEmpty))

/-- Modelled from the spec for the filesystem side effects: the
`remove_empty_folder` round trip (git.py lines 236-245, spec section 4.2)
removes, bottom up, every in-scope directory that contains neither files
nor subdirectories; `os.removedirs` then also deletes ancestors that the
removal emptied, which the repeated rounds reproduce. -/
def pruneEmptyFolders (dir_ok_fn : Bytes → Bool) (rootdir : Bytes) :
    Nat → Disk → Disk
  | 0, disk => disk
  | n + 1, disk =>
    let disk' := pruneRound dir_ok_fn rootdir disk
    if disk'.length == disk.length then disk
    else pruneEmptyFolders dir_ok_fn rootdir n disk'

/-- The body of the walker's main loop (git.py lines 251-281) for one
`gen_dir` triple: hash the symlinks of the directory (recording them in
`all_links`), then the remaining files, store the entry list under the
directory path, and append the tree entries of the non-link
subdirectories, computed from the entry lists stored so far. -/
def processTriple (disk : Disk) (st : Index × List Bytes) (t : Triple) :
    Except PyErr (Index × List Bytes) :=
  let ls_hashes := st.1
  let all_links := st.2
  let dirpath := t.1
  let dirnames := t.2.1
  let filenames := t.2.2
  let links := ((filenames ++ dirnames).map (fun f => join dirpath f)).filter
    (fun p => isLinkAt disk p)
  let all_links := links.foldl (fun acc p => if acc.contains p then acc else acc ++ [p])
    all_links
  match mapE (compute_link_metadata disk) links with
  | .error e => .error e
  | .ok linkEs =>
    let only_files := (filenames.map (fun f => join dirpath f)).filter
      (fun p => ¬ all_links.contains p)
    match mapE (compute_blob_metadata disk) only_files with
    | .error e => .error e
    | .ok fileEs =>
      let ls_hashes := insertIdx ls_hashes dirpath (linkEs ++ fileEs)
      let subdirs := (dirnames.map (fun dn => join dirpath dn)).filter
        (fun p => ¬ all_links.contains p)
      match mapE (fun d => compute_tree_metadata d ls_hashes) subdirs with
      | .error e => .error e
      | .ok treeEs =>
        .ok (insertIdx ls_hashes dirpath (linkEs ++ fileEs ++ treeEs), all_links)

/-- `walk_and_compute_sha1_from_directory` (git.py lines 189-294): strip a
trailing separator from the root, optionally prune empty folders, fold the
walker body over the filtered bottom-up triples and, when requested,
synthesize the sentinel root entry from the root directory's stored
entries. -/
def walk_and_compute_sha1_from_directory (disk : Disk) (rootdir : Bytes)
    (dir_ok_fn : Bytes → Bool) (with_root_tree : Bool := true)
    (remove_empty_folder : Bool := false) : Except PyErr Index :=
  let rootdir := stripTrailingSep rootdir
  let disk := if remove_empty_folder
    then pruneEmptyFolders dir_ok_fn rootdir disk.length disk else disk
  match foldE (processTriple disk) ([], []) (genDir disk dir_ok_fn rootdir) with
  | .error e => .error e
  | .ok (ls_hashes, _) =>
    if with_root_tree then
      match compute_directory_git_sha1 rootdir ls_hashes with
      | .error e => .error e
      | .ok d =>
        .ok (insertIdx ls_hashes ROOT_TREE_KEY
          [{ name := basename rootdir, perms := .TREE, type := .TREE,
             path := rootdir, sha1_git := d }])
    else .ok ls_hashes

/-! ### `commonpath` (git.py lines 359-397) -/

/-- Python byte-string comparison: lexicographic by byte value. -/
def bytesLt : Bytes → Bytes → Bool
  | [], [] => false
  | [], _ :: _ => true
  | _ :: _, [] => false
  | a :: as, b :: bs =>
    if a < b then true else if b < a then false else bytesLt as bs

/-- Python list comparison on component lists: lexicographic with
byte-string comparison on the components. -/
def componentsLt : List Bytes → List Bytes → Bool
  | [], [] => false
  | [], _ :: _ => true
  | _ :: _, [] => false
  | a :: as, b :: bs =>
    if bytesLt a b then true else if bytesLt b a then false else componentsLt as bs

/-- Python `min` over a nonempty list: first minimum wins. -/
def listMinBy (lt : α → α → Bool) (x : α) (xs : List α) : α :=
  xs.foldl (fun acc y => if lt y acc then y else acc) x

/-- Python `max` over a nonempty list: keeps the current value unless a
strictly larger one appears. -/
def listMaxBy (lt : α → α → Bool) (x : α) (xs : List α) : α :=
  xs.foldl (fun acc y => if lt acc y then y else acc) x

/-- The prefix loop of `commonpath` (git.py lines 388-392): `common` is
`s1` truncated at the first component that differs from `s2`.  When `s1`
is the lexicographic minimum and `s2` the maximum this never reads past
the end of `s2` (a mismatch occurs first), so the `[]` fallback in the
second equation is unreachable there. -/
def commonLoop : List Bytes → List Bytes → List Bytes
  | [], _ => []
  | _ :: _, [] => []
  | c :: cs, d :: ds => if c == d then c :: commonLoop cs ds else []

/-- `commonpath` (git.py lines 359-397), copied from Python 3.5: raises
`ValueError` on an empty sequence; raises `ValueError` when the paths mix
absolute and relative (the `isabs, = set(...)` unpacking); otherwise the
longest common sub-path of the separator-split, empty-and-dot-filtered
component lists. -/
def commonpath (paths : List Bytes) : Except PyErr Bytes :=
  match paths with
  | [] => .error .valueErrorEmptySeq
  | p0 :: prest =>
    let split_paths := (p0 :: prest).map (fun p => p.splitOn sepC)
    let absFlags := ((p0 :: prest).map (fun p => p.take 1 == [sepC])).dedup
    if absFlags.length ≠ 1 then .error .valueErrorMixedPaths
    else
      let isabs := p0.take 1 == [sepC]
      let split_paths := split_paths.map (fun s =>
        s.filter (fun c => ¬ c.isEmpty && ¬(c == [('.' : Char)])))
      match split_paths with
      | [] => .error .valueErrorEmptySeq
      | s :: ss =>
        let s1 := listMinBy componentsLt s ss
        let s2 := listMaxBy componentsLt s ss
        let common := commonLoop s1 s2
        let pre : Bytes := if isabs then [sepC] else []
        .ok (pre ++ List.intercalate [sepC] common)

/-! ### Cascading removal, `__remove_paths_from_objects`
(git.py lines 400-440) -/

/-- Python set `add`: sets are modelled as duplicate-free lists in
insertion order. -/
def setAdd (s : List Bytes) (x : Bytes) : List Bytes :=
  if s.contains x then s else s ++ [x]

/-- The predicate of the parent-list filter at git.py lines 431-433.  The
Python code compares each entry dictionary `p` against the byte-string
`path`; values of different types never compare equal in Python, so the
predicate is constantly true and the filter keeps every entry.  (The
intended comparison was presumably on the entry's own path.) -/
def entryNeqPath (_e : Entry) (_path : Bytes) : Bool := true

/-- The body of the removal loop (git.py lines 416-433) for one path of
the removal set, threading the objects dictionary and the
`dirpaths_to_clean` set: pop the path, queue its tree children, and either
queue the parent (when the predicate rejects it) or re-filter the parent's
entry list.  The stored Python `filter` object is modelled by the
eagerly-applied (constantly true) filter. -/
def removeStep (dir_ok_fn : Bytes → Bool) (st : Index × List Bytes)
    (path : Bytes) : Index × List Bytes :=
  let objects := st.1
  let toClean := st.2
  let path_list := lookupIdx objects path
  let objects := popIdx objects path
  let toClean := match path_list with
    | some l =>
      if l.isEmpty then toClean
      else l.foldl (fun tc child =>
        if child.type == GitType.TREE then setAdd tc child.path else tc) toClean
    | none => toClean
  let parent := dirname path
  let parent_check := dir_ok_fn parent
  if ¬ parent_check ∧ ¬ (toClean.contains parent) then
    (objects, setAdd toClean parent)
  else
    match lookupIdx objects parent with
    | some (h :: tl) =>
      (insertIdx objects parent ((h :: tl).filter (fun e => entryNeqPath e path)),
       toClean)
    | _ => (objects, toClean)

/-- One recursion level of `__remove_paths_from_objects`: the loop over
the whole removal set. -/
def removeLevel (dir_ok_fn : Bytes → Bool) (objects : Index)
    (rootpaths : List Bytes) : Index × List Bytes :=
  rootpaths.foldl (removeStep dir_ok_fn) (objects, [])

/-- `__remove_paths_from_objects` (git.py lines 400-440): process one
level, then recurse on the queued directories until the queue is empty.
The recursion of the source is unbounded; it is embedded with fuel, one
unit per recursion level, and a `none` result for every fuel corresponds
to divergence of the original program. -/
def removePathsFromObjects (dir_ok_fn : Bytes → Bool) :
    Nat → Index → List Bytes → Option Index
  | fuel, objects, rootpaths =>
    let lv := removeLevel dir_ok_fn objects rootpaths
    if lv.2.isEmpty then some lv.1
    else
      match fuel with
      | 0 => none
      | n + 1 => removePathsFromObjects dir_ok_fn n lv.1 lv.2

/-! ### `recompute_sha1_in_memory` (git.py lines 297-356) -/

/-- The body of the while loop for one ancestor level (git.py lines
337-347): read `objects[rootdir]` (a `KeyError` when the level is not a
key), then rebuild its entry list, recomputing every tree entry from the
current dictionary and copying the others; the dictionary is reassigned
after each appended entry, exactly as the in-loop assignment does. -/
def recomputeLevel (objects : Index) (rootdir : Bytes) : Except PyErr Index :=
  match lookupIdx objects rootdir with
  | none => .error (.keyError rootdir)
  | some files =>
    match foldE (fun st hashfile =>
        let objs := st.1
        let ls_hashes := st.2
        if hashfile.type == GitType.TREE then
          match compute_tree_metadata hashfile.path objs with
          | .error e => .error e
          | .ok tree_hash =>
            let ls_hashes := ls_hashes ++ [tree_hash]
            .ok (insertIdx objs rootdir ls_hashes, ls_hashes)
        else
          let ls_hashes := ls_hashes ++ [hashfile]
          .ok (insertIdx objs rootdir ls_hashes, ls_hashes))
      (objects, ([] : List Entry)) files with
    | .error e => .error e
    | .ok st => .ok st.1

/-- The while loop of `recompute_sha1_in_memory`: climb from `rootdir` to
`upper_root` exclusive, one `dirname` at a time.  The loop of the source
does not terminate when the climb reaches a `dirname` fixed point other
than `upper_root`; the fuel supplied by `recompute_sha1_in_memory` is
large enough that `none` is returned exactly in that divergent case. -/
def recomputeLoop (upper_root : Bytes) :
    Nat → Index → Bytes → Option (Except PyErr Index)
  | fuel, objects, rootdir =>
    if rootdir == upper_root then some (.ok objects)
    else
      match fuel with
      | 0 => none
      | n + 1 =>
        match recomputeLevel objects rootdir with
        | .error e => some (.error e)
        | .ok objects' => recomputeLoop upper_root n objects' (dirname rootdir)

/-- `recompute_sha1_in_memory` (git.py lines 297-356): recompute every
ancestor level from `dirname(deeper_rootdir)` up to `dirname(root)`
exclusive, then recompute the sentinel root entry's digest from the root
directory's entries. -/
def recompute_sha1_in_memory (root deeper_rootdir : Bytes) (objects : Index) :
    Option (Except PyErr Index) :=
  let upper_root := dirname root
  let start := dirname deeper_rootdir
  match recomputeLoop upper_root (start.length + 2) objects start with
  | none => none
  | some (.error e) => some (.error e)
  | some (.ok objects) =>
    match compute_directory_git_sha1 root objects with
    | .error e => some (.error e)
    | .ok root_tree_hash =>
      match lookupIdx objects ROOT_TREE_KEY with
      | none => some (.error (.keyError ROOT_TREE_KEY))
      | some [] => some (.error .indexError)
      | some (e0 :: rest) =>
        some (.ok (insertIdx objects ROOT_TREE_KEY
          ({ e0 with sha1_git := root_tree_hash } :: rest)))

/-! ### `update_checksums_from` (git.py lines 443-519) -/

/-- A change descriptor: `{'path': ..., 'action': ...}` with action one of
the strings A, M, D (git.py lines 449-453). -/
structure Change where
  path : Bytes
  action : Bytes

/-- The action string compared against at git.py line 480. -/
def actD : Bytes := [('D' : Char)]

/-- The first round trip of `update_checksums_from` (git.py lines
467-483): walk the change list accumulating the parent set and the
deletion set, aborting with `Sum.inl` as soon as a change's parent equals
the archived root (the caller then falls back to a full walk). -/
def firstPass (root : Bytes) :
    List Change → List Bytes → List Bytes → Sum Unit (List Bytes × List Bytes)
  | [], paths, paths_to_remove => .inr (paths, paths_to_remove)
  | c :: rest, paths, paths_to_remove =>
    let parent := dirname c.path
    if parent == root then .inl ()
    else
      let paths_to_remove :=
        if c.action == actD then setAdd paths_to_remove c.path else paths_to_remove
      let paths := setAdd paths parent
      firstPass root rest paths paths_to_remove

/-- `update_checksums_from` (git.py lines 443-519).  The walker fuel
threaded to the removal cascade is the only unbounded part; `none` for
every fuel corresponds to divergence of the original program (in the
cascade or in the ancestor loop). -/
def update_checksums_from (disk : Disk) (changed_paths : List Change)
    (objects : Index) (dir_ok_fn : Bytes → Bool)
    (remove_empty_folder : Bool) (fuel : Nat) : Option (Except PyErr Index) :=
  match lookupIdx objects ROOT_TREE_KEY with
  | none => some (.error (.keyError ROOT_TREE_KEY))
  | some [] => some (.error .indexError)
  | some (e0 :: _) =>
    let root := stripTrailingSep e0.path
    match firstPass root changed_paths [] [] with
    | .inl _ =>
      some (walk_and_compute_sha1_from_directory disk root dir_ok_fn true
        remove_empty_folder)
    | .inr (paths, paths_to_remove) =>
      if paths.isEmpty then some (.ok objects)
      else
        match commonpath paths with
        | .error e => some (.error e)
        | .ok rootdir =>
          let removed := if paths_to_remove.isEmpty then some objects
            else removePathsFromObjects dir_ok_fn fuel objects paths_to_remove
          match removed with
          | none => none
          | some objects =>
            if ¬ truthyLookup objects rootdir then
              some (walk_and_compute_sha1_from_directory disk root dir_ok_fn true
                remove_empty_folder)
            else
              match walk_and_compute_sha1_from_directory disk rootdir dir_ok_fn
                false remove_empty_folder with
              | .error e => some (.error e)
              | .ok hashes =>
                recompute_sha1_in_memory root rootdir (updateIdx objects hashes)

/-- Extract the index of a successful walk (used by concrete scenarios). -/
def extractOk (r : Except PyErr Index) : Index :=
  match r with
  | .ok idx => idx
  | .error _ => []

/-- Extract the index of a successful update (used by concrete scenarios). -/
def extractOkU (r : Option (Except PyErr Index)) : Index :=
  match r with
  | some (.ok idx) => idx
  | _ => []

/-! ## Dictionary lemmas -/

theorem lookupIdx_insertIdx (idx : Index) (k : Bytes) (v : List Entry)
    (p : Bytes) :
    lookupIdx (insertIdx idx k v) p = if k == p then some v else lookupIdx idx p := by
  induction idx with
  | nil => simp [insertIdx, lookupIdx]
  | cons pr rest ih =>
    obtain ⟨k', v'⟩ := pr
    by_cases hk : k' = k
    · subst hk
      simp only [insertIdx, beq_self_eq_true, if_true, lookupIdx]
      by_cases hp : k' = p <;> simp [hp]
    · simp only [insertIdx, lookupIdx, beq_iff_eq, if_neg hk]
      by_cases hp : k' = p
      · subst hp
        have : ¬ (k = k') := fun h => hk h.symm
        simp [lookupIdx, beq_iff_eq, this]
      · simp [lookupIdx, beq_iff_eq, hp, ih]

theorem hasKey_insertIdx (idx : Index) (k : Bytes) (v : List Entry) (p : Bytes) :
    hasKey (insertIdx idx k v) p = ((k == p) || hasKey idx p) := by
  simp only [hasKey, lookupIdx_insertIdx]
  by_cases h : k = p <;> simp [h]

theorem hasKey_insertIdx_mono (idx : Index) (k : Bytes) (v : List Entry)
    (p : Bytes) (h : hasKey idx p = true) :
    hasKey (insertIdx idx k v) p = true := by
  simp [hasKey_insertIdx, h]

theorem insertIdx_lookup_self (idx : Index) (k : Bytes) (v : List Entry)
    (h : lookupIdx idx k = some v) : insertIdx idx k v = idx := by
  induction idx with
  | nil => simp [lookupIdx] at h
  | cons pr rest ih =>
    obtain ⟨k', v'⟩ := pr
    by_cases hk : k' = k
    · subst hk
      simp only [lookupIdx, beq_self_eq_true, if_true, Option.some.injEq] at h
      simp [insertIdx, h]
    · simp only [lookupIdx, beq_iff_eq, if_neg hk] at h
      simp [insertIdx, beq_iff_eq, hk, ih h]

theorem mem_insertIdx (idx : Index) (k : Bytes) (v : List Entry)
    (pr : Bytes × List Entry) (h : pr ∈ insertIdx idx k v) :
    pr = (k, v) ∨ pr ∈ idx := by
  induction idx with
  | nil => simpa [insertIdx] using h
  | cons pr' rest ih =>
    obtain ⟨k', v'⟩ := pr'
    by_cases hk : k' = k
    · subst hk
      simp only [insertIdx, beq_self_eq_true, if_true, List.mem_cons] at h
      rcases h with h | h
      · exact .inl h
      · exact .inr (List.mem_cons_of_mem _ h)
    · simp only [insertIdx, beq_iff_eq, if_neg hk, List.mem_cons] at h
      rcases h with h | h
      · exact .inr (by simp [h])
      · rcases ih h with h' | h'
        · exact .inl h'
        · exact .inr (List.mem_cons_of_mem _ h')

theorem lookupIdx_mem (idx : Index) (p : Bytes) (es : List Entry)
    (h : lookupIdx idx p = some es) : (p, es) ∈ idx := by
  induction idx with
  | nil => simp [lookupIdx] at h
  | cons pr rest ih =>
    obtain ⟨k', v'⟩ := pr
    by_cases hk : k' = p
    · subst hk
      simp only [lookupIdx, beq_self_eq_true, if_true, Option.some.injEq] at h
      simp [h]
    · simp only [lookupIdx, beq_iff_eq, if_neg hk] at h
      exact List.mem_cons_of_mem _ (ih h)

theorem mem_popIdx (idx : Index) (k : Bytes) (pr : Bytes × List Entry)
    (h : pr ∈ popIdx idx k) : pr ∈ idx :=
  List.mem_of_mem_filter h

theorem popIdx_length_le (idx : Index) (k : Bytes) :
    (popIdx idx k).length ≤ idx.length :=
  List.length_filter_le _ _

theorem popIdx_length_lt (idx : Index) (k : Bytes)
    (h : hasKey idx k = true) : (popIdx idx k).length < idx.length := by
  induction idx with
  | nil => simp [hasKey, lookupIdx] at h
  | cons pr rest ih =>
    obtain ⟨k', v'⟩ := pr
    by_cases hk : k' = k
    · subst hk
      have : popIdx ((k', v') :: rest) k' = popIdx rest k' := by
        simp [popIdx, List.filter_cons]
      rw [this]
      have := popIdx_length_le rest k'
      simp only [List.length_cons]
      omega
    · have hstep : popIdx ((k', v') :: rest) k = (k', v') :: popIdx rest k := by
        simp [popIdx, List.filter_cons, hk]
      rw [hstep]
      simp only [hasKey, lookupIdx, beq_iff_eq, if_neg hk] at h
      have := ih h
      simp only [List.length_cons]
      omega

theorem popIdx_eq_self (idx : Index) (k : Bytes)
    (h : hasKey idx k = false) : popIdx idx k = idx := by
  induction idx with
  | nil => rfl
  | cons pr rest ih =>
    obtain ⟨k', v'⟩ := pr
    by_cases hk : k' = k
    · subst hk
      simp [hasKey, lookupIdx] at h
    · simp only [hasKey, lookupIdx, beq_iff_eq, if_neg hk] at h
      have : popIdx ((k', v') :: rest) k = (k', v') :: popIdx rest k := by
        simp [popIdx, List.filter_cons, hk]
      rw [this, ih h]

theorem mem_updateIdx (idx new : Index) (pr : Bytes × List Entry)
    (h : pr ∈ updateIdx idx new) : pr ∈ idx ∨ pr ∈ new := by
  induction new generalizing idx with
  | nil => exact .inl h
  | cons pr' rest ih =>
    simp only [updateIdx, List.foldl_cons] at h
    rcases ih _ (by simpa [updateIdx] using h) with h' | h'
    · rcases mem_insertIdx _ _ _ _ h' with h'' | h''
      · exact .inr (by simp [h''])
      · exact .inl h''
    · exact .inr (List.mem_cons_of_mem _ h')

theorem hasKey_updateIdx_left (idx new : Index) (p : Bytes)
    (h : hasKey idx p = true) : hasKey (updateIdx idx new) p = true := by
  induction new generalizing idx with
  | nil => exact h
  | cons pr rest ih =>
    simp only [updateIdx, List.foldl_cons]
    exact ih _ (hasKey_insertIdx_mono _ _ _ _ h)

theorem hasKey_updateIdx_right (idx new : Index) (p : Bytes)
    (h : hasKey new p = true) : hasKey (updateIdx idx new) p = true := by
  induction new generalizing idx with
  | nil => simp [hasKey, lookupIdx] at h
  | cons pr rest ih =>
    obtain ⟨k', v'⟩ := pr
    simp only [updateIdx, List.foldl_cons]
    by_cases hk : k' = p
    · subst hk
      by_cases hr : hasKey rest k' = true
      · exact ih _ hr
      · refine hasKey_updateIdx_left _ _ _ ?_
        simp [hasKey_insertIdx]
    · simp only [hasKey, lookupIdx, beq_iff_eq, if_neg hk] at h
      exact ih _ h

/-! ## Path lemmas -/

theorem rstripSep_length_le (p : Bytes) : (rstripSep p).length ≤ p.length := by
  unfold rstripSep
  calc (p.reverse.dropWhile (· == sepC)).reverse.length
      = (p.reverse.dropWhile (· == sepC)).length := List.length_reverse _
    _ ≤ p.reverse.length := List.IsSuffix.length_le (List.dropWhile_suffix _)
    _ = p.length := List.length_reverse _

theorem rstripSep_length_lt (p : Bytes) (h : rstripSep p ≠ p) :
    (rstripSep p).length < p.length := by
  rcases Nat.lt_or_ge (rstripSep p).length p.length with hlt | hge
  · exact hlt
  · exfalso
    apply h
    have hsuf : p.reverse.dropWhile (· == sepC) <:+ p.reverse :=
      List.dropWhile_suffix _
    have hlen : (p.reverse.dropWhile (· == sepC)).length = p.reverse.length := by
      have h1 := rstripSep_length_le p
      have h2 : (rstripSep p).length = (p.reverse.dropWhile (· == sepC)).length := by
        unfold rstripSep
        exact List.length_reverse _
      have h3 : (p.reverse.dropWhile (· == sepC)).length ≤ p.reverse.length :=
        List.IsSuffix.length_le (List.dropWhile_suffix _)
      simp only [List.length_reverse] at h3 ⊢
      omega
    have := List.IsSuffix.eq_of_length hsuf hlen
    unfold rstripSep
    rw [this, List.reverse_reverse]

theorem take_length_lt_of_ne (p : Bytes) (i : Nat) (h : p.take i ≠ p) :
    (p.take i).length < p.length := by
  rcases Nat.lt_or_ge (p.take i).length p.length with hlt | hge
  · exact hlt
  · exfalso
    apply h
    exact List.IsPrefix.eq_of_length (List.take_prefix i p)
      (Nat.le_antisymm (by simp) hge)

theorem dirname_length_le (p : Bytes) : (dirname p).length ≤ p.length := by
  unfold dirname
  by_cases hc : p.take (lastSepPos p) ≠ [] ∧
      ¬((p.take (lastSepPos p)).all (· == sepC))
  · rw [if_pos hc]
    calc (rstripSep (p.take (lastSepPos p))).length
        ≤ (p.take (lastSepPos p)).length := rstripSep_length_le _
      _ ≤ p.length := by simp
  · rw [if_neg hc]
    simp

theorem dirname_length_lt (p : Bytes) (h : dirname p ≠ p) :
    (dirname p).length < p.length := by
  unfold dirname at h ⊢
  by_cases hc : p.take (lastSepPos p) ≠ [] ∧
      ¬((p.take (lastSepPos p)).all (· == sepC))
  · rw [if_pos hc] at h ⊢
    by_cases hh : p.take (lastSepPos p) = p
    · rw [hh] at h ⊢
      exact rstripSep_length_lt p h
    · calc (rstripSep (p.take (lastSepPos p))).length
          ≤ (p.take (lastSepPos p)).length := rstripSep_length_le _
        _ < p.length := take_length_lt_of_ne p _ hh
  · rw [if_neg hc] at h ⊢
    exact take_length_lt_of_ne p _ h

/-! ## foldE and mapE lemmas -/

theorem foldE_inv (step : σ → α → Except PyErr σ) (P : σ → Prop)
    (hstep : ∀ s a s', P s → step s a = .ok s' → P s') :
    ∀ (l : List α) (s s' : σ), foldE step s l = .ok s' → P s → P s' := by
  intro l
  induction l with
  | nil =>
    intro s s' h hP
    simp only [foldE, Except.ok.injEq] at h
    exact h ▸ hP
  | cons a as ih =>
    intro s s' h hP
    simp only [foldE] at h
    split at h
    · exact absurd h (by simp)
    · next s1 heq => exact ih s1 s' h (hstep s a s1 hP heq)

theorem mapE_ok_forall (f : α → Except PyErr β) :
    ∀ (l : List α) (bs : List β), mapE f l = .ok bs →
      ∀ b ∈ bs, ∃ a ∈ l, f a = .ok b := by
  intro l
  induction l with
  | nil =>
    intro bs h b hb
    simp only [mapE, Except.ok.injEq] at h
    subst h
    simp at hb
  | cons a as ih =>
    intro bs h b hb
    simp only [mapE] at h
    split at h
    · exact absurd h (by simp)
    · next b0 heq0 =>
      split at h
      · exact absurd h (by simp)
      · next bs0 heq1 =>
        simp only [Except.ok.injEq] at h
        subst h
        rcases List.mem_cons.mp hb with hb | hb
        · exact ⟨a, List.mem_cons_self _ _, hb ▸ heq0⟩
        · rcases ih bs0 heq1 b hb with ⟨a', ha', hfa'⟩
          exact ⟨a', List.mem_cons_of_mem _ ha', hfa'⟩

/-! ## Metadata builder facts -/

theorem compute_link_metadata_ok (disk : Disk) (p : Bytes) (e : Entry)
    (h : compute_link_metadata disk p = .ok e) :
    e.perms = GitPerm.LINK ∧ e.type = GitType.BLOB := by
  unfold compute_link_metadata at h
  split at h
  · next target heq =>
    simp only [Except.ok.injEq] at h
    subst h
    exact ⟨rfl, rfl⟩
  · exact absurd h (by simp)

theorem compute_blob_metadata_ok (disk : Disk) (p : Bytes) (e : Entry)
    (h : compute_blob_metadata disk p = .ok e) :
    e.type = GitType.BLOB ∧ e.perms ≠ GitPerm.LINK := by
  unfold compute_blob_metadata at h
  split at h
  · next content isExec heq =>
    simp only [Except.ok.injEq] at h
    subst h
    refine ⟨rfl, ?_⟩
    by_cases hx : isExec <;> simp [hx]
  · exact absurd h (by simp)

theorem compute_tree_metadata_ok (d : Bytes) (ls : Index) (e : Entry)
    (h : compute_tree_metadata d ls = .ok e) :
    e.path = d ∧ e.type = GitType.TREE ∧ e.perms = GitPerm.TREE ∧
      hasKey ls d = true := by
  unfold compute_tree_metadata at h
  split at h
  · exact absurd h (by simp)
  · next dg heq =>
    simp only [Except.ok.injEq] at h
    subst h
    refine ⟨rfl, rfl, rfl, ?_⟩
    unfold compute_directory_git_sha1 at heq
    split at heq
    · exact absurd heq (by simp)
    · next es heq2 => simp [hasKey, heq2]

theorem compute_directory_ok_hasKey (dp : Bytes) (hs : Index) (d : Digest)
    (h : compute_directory_git_sha1 dp hs = .ok d) : hasKey hs dp = true := by
  unfold compute_directory_git_sha1 at h
  split at h
  · exact absurd h (by simp)
  · next es heq => simp [hasKey, heq]

/-! ## Walker invariants -/

/-- The closure property: every tree entry's source path is a key. -/
def ClosureInv (idx : Index) : Prop :=
  ∀ pr ∈ idx, ∀ e ∈ pr.2, e.type = GitType.TREE → hasKey idx e.path = true

/-- The entry-list shape produced by the walker's loop body: symlink
entries, then non-symlink file entries, then subdirectory tree entries. -/
def ShapeP (es : List Entry) : Prop :=
  ∃ l fl tr, es = l ++ fl ++ tr
    ∧ (∀ e ∈ l, e.perms = GitPerm.LINK ∧ e.type = GitType.BLOB)
    ∧ (∀ e ∈ fl, e.type = GitType.BLOB ∧ e.perms ≠ GitPerm.LINK)
    ∧ (∀ e ∈ tr, e.type = GitType.TREE ∧ e.perms = GitPerm.TREE)

theorem ShapeP_tree_singleton (e : Entry) (h1 : e.type = GitType.TREE)
    (h2 : e.perms = GitPerm.TREE) : ShapeP [e] := by
  refine ⟨[], [], [e], by simp, by simp, by simp, ?_⟩
  intro x hx
  simp only [List.mem_singleton] at hx
  subst hx
  exact ⟨h1, h2⟩

theorem foldE_inv_mem (step : σ → α → Except PyErr σ) (P : σ → Prop) :
    ∀ l : List α, (∀ s a s', a ∈ l → P s → step s a = .ok s' → P s') →
      ∀ s s', foldE step s l = .ok s' → P s → P s' := by
  intro l
  induction l with
  | nil =>
    intro _ s s' h hP
    simp only [foldE, Except.ok.injEq] at h
    exact h ▸ hP
  | cons a as ih =>
    intro hstep s s' h hP
    simp only [foldE] at h
    split at h
    · exact absurd h (by simp)
    · next s1 heq =>
      exact ih (fun s a' s' ha' => hstep s a' s' (List.mem_cons_of_mem _ ha'))
        s1 s' h (hstep s a s1 (List.mem_cons_self _ _) hP heq)

/-- Structural characterization of a successful walker loop body. -/
theorem processTriple_ok_struct (disk : Disk) (st : Index × List Bytes)
    (t : Triple) (st' : Index × List Bytes)
    (h : processTriple disk st t = .ok st') :
    ∃ (A B T : List Entry) (links files subdirs : List Bytes),
      mapE (compute_link_metadata disk) links = .ok A
      ∧ mapE (compute_blob_metadata disk) files = .ok B
      ∧ mapE (fun d => compute_tree_metadata d (insertIdx st.1 t.1 (A ++ B)))
          subdirs = .ok T
      ∧ st'.1 = insertIdx (insertIdx st.1 t.1 (A ++ B)) t.1 (A ++ B ++ T) := by
  simp only [processTriple] at h
  split at h
  · exact absurd h (by simp)
  · next A hA =>
    split at h
    · exact absurd h (by simp)
    · next B hB =>
      split at h
      · exact absurd h (by simp)
      · next T hT =>
        simp only [Except.ok.injEq] at h
        subst h
        exact ⟨A, B, T, _, _, _, hA, hB, hT, rfl⟩

theorem processTriple_closure (disk : Disk) (st : Index × List Bytes)
    (t : Triple) (st' : Index × List Bytes)
    (h : processTriple disk st t = .ok st') (hinv : ClosureInv st.1) :
    ClosureInv st'.1 := by
  obtain ⟨A, B, T, links, files, subdirs, hA, hB, hT, hst⟩ :=
    processTriple_ok_struct disk st t st' h
  intro pr hpr e he htype
  rw [hst] at hpr ⊢
  have treeCase : e ∈ T → hasKey (insertIdx (insertIdx st.1 t.1 (A ++ B)) t.1
      (A ++ B ++ T)) e.path = true := by
    intro heT
    obtain ⟨d, _, hd⟩ := mapE_ok_forall _ subdirs T hT e heT
    obtain ⟨hpath, _, _, hkey⟩ := compute_tree_metadata_ok d _ e hd
    rw [hpath]
    exact hasKey_insertIdx_mono _ _ _ _ hkey
  have notA : e ∈ A → False := by
    intro heA
    obtain ⟨a, _, ha⟩ := mapE_ok_forall _ links A hA e heA
    obtain ⟨_, ht'⟩ := compute_link_metadata_ok disk a e ha
    rw [ht'] at htype
    exact absurd htype (by simp)
  have notB : e ∈ B → False := by
    intro heB
    obtain ⟨a, _, ha⟩ := mapE_ok_forall _ files B hB e heB
    obtain ⟨ht', _⟩ := compute_blob_metadata_ok disk a e ha
    rw [ht'] at htype
    exact absurd htype (by simp)
  rcases mem_insertIdx _ _ _ _ hpr with hcase | hcase
  · subst hcase
    rcases List.mem_append.mp (he : e ∈ A ++ B ++ T) with h1 | h1
    · rcases List.mem_append.mp h1 with h2 | h2
      · exact absurd h2 notA
      · exact absurd h2 notB
    · exact treeCase h1
  · rcases mem_insertIdx _ _ _ _ hcase with hcase2 | hcase2
    · subst hcase2
      rcases List.mem_append.mp (he : e ∈ A ++ B) with h2 | h2
      · exact absurd h2 notA
      · exact absurd h2 notB
    · have := hinv pr hcase2 e he htype
      exact hasKey_insertIdx_mono _ _ _ _ (hasKey_insertIdx_mono _ _ _ _ this)

theorem processTriple_shape (disk : Disk) (st : Index × List Bytes)
    (t : Triple) (st' : Index × List Bytes)
    (h : processTriple disk st t = .ok st') (hinv : ∀ pr ∈ st.1, ShapeP pr.2) :
    ∀ pr ∈ st'.1, ShapeP pr.2 := by
  obtain ⟨A, B, T, links, files, subdirs, hA, hB, hT, hst⟩ :=
    processTriple_ok_struct disk st t st' h
  have factsA : ∀ e ∈ A, e.perms = GitPerm.LINK ∧ e.type = GitType.BLOB := by
    intro e heA
    obtain ⟨a, _, ha⟩ := mapE_ok_forall _ links A hA e heA
    exact compute_link_metadata_ok disk a e ha
  have factsB : ∀ e ∈ B, e.type = GitType.BLOB ∧ e.perms ≠ GitPerm.LINK := by
    intro e heB
    obtain ⟨a, _, ha⟩ := mapE_ok_forall _ files B hB e heB
    exact compute_blob_metadata_ok disk a e ha
  have factsT : ∀ e ∈ T, e.type = GitType.TREE ∧ e.perms = GitPerm.TREE := by
    intro e heT
    obtain ⟨d, _, hd⟩ := mapE_ok_forall _ subdirs T hT e heT
    obtain ⟨_, h1, h2, _⟩ := compute_tree_metadata_ok d _ e hd
    exact ⟨h1, h2⟩
  intro pr hpr
  rw [hst] at hpr
  rcases mem_insertIdx _ _ _ _ hpr with hcase | hcase
  · rw [hcase]
    exact ⟨A, B, T, rfl, factsA, factsB, factsT⟩
  · rcases mem_insertIdx _ _ _ _ hcase with hcase2 | hcase2
    · rw [hcase2]
      exact ⟨A, B, [], by simp, factsA, factsB, by simp⟩
    · exact hinv pr hcase2

theorem processTriple_keys (disk : Disk) (st : Index × List Bytes)
    (t : Triple) (st' : Index × List Bytes) (f : Bytes → Bool)
    (h : processTriple disk st t = .ok st') (hft : f t.1 = true)
    (hinv : ∀ pr ∈ st.1, f pr.1 = true) : ∀ pr ∈ st'.1, f pr.1 = true := by
  obtain ⟨A, B, T, links, files, subdirs, hA, hB, hT, hst⟩ :=
    processTriple_ok_struct disk st t st' h
  intro pr hpr
  rw [hst] at hpr
  rcases mem_insertIdx _ _ _ _ hpr with hcase | hcase
  · rw [hcase]; exact hft
  · rcases mem_insertIdx _ _ _ _ hcase with hcase2 | hcase2
    · rw [hcase2]; exact hft
    · exact hinv pr hcase2

theorem genDir_dir_ok (disk : Disk) (f : Bytes → Bool) (rootdir : Bytes)
    (t : Triple) (h : t ∈ genDir disk f rootdir) : f t.1 = true := by
  unfold genDir at h
  obtain ⟨a, _, ha⟩ := List.mem_filterMap.mp h
  by_cases hf : f a.1 = true
  · rw [if_pos hf] at ha
    simp only [Option.some.injEq] at ha
    rw [← ha]
    exact hf
  · rw [if_neg hf] at ha
    exact absurd ha (by simp)

/-- Closure of every successful walk: each tree entry's path is a key of
the returned index. -/
theorem walk_ok_closure (disk : Disk) (rootdir : Bytes) (f : Bytes → Bool)
    (wrt ref : Bool) (idx : Index)
    (h : walk_and_compute_sha1_from_directory disk rootdir f wrt ref = .ok idx) :
    ClosureInv idx := by
  simp only [walk_and_compute_sha1_from_directory] at h
  split at h
  · exact absurd h (by simp)
  · next ls links heq =>
    have hcl : ClosureInv ls :=
      foldE_inv _ (fun st => ClosureInv st.1)
        (fun s a s' hP hstep => processTriple_closure _ s a s' hstep hP)
        _ _ _ heq (by intro pr hpr; simp at hpr)
    by_cases hwrt : wrt = true
    · rw [if_pos hwrt] at h
      split at h
      · exact absurd h (by simp)
      · next d hd =>
        simp only [Except.ok.injEq] at h
        subst h
        intro pr hpr e he htype
        rcases mem_insertIdx _ _ _ _ hpr with hcase | hcase
        · subst hcase
          simp only [List.mem_singleton] at he
          subst he
          exact hasKey_insertIdx_mono _ _ _ _ (compute_directory_ok_hasKey _ _ _ hd)
        · exact hasKey_insertIdx_mono _ _ _ _ (hcl pr hcase e he htype)
    · rw [if_neg hwrt] at h
      simp only [Except.ok.injEq] at h
      subst h
      exact hcl

/-- Entry-list shape of every successful walk. -/
theorem walk_ok_shape (disk : Disk) (rootdir : Bytes) (f : Bytes → Bool)
    (wrt ref : Bool) (idx : Index)
    (h : walk_and_compute_sha1_from_directory disk rootdir f wrt ref = .ok idx) :
    ∀ pr ∈ idx, ShapeP pr.2 := by
  simp only [walk_and_compute_sha1_from_directory] at h
  split at h
  · exact absurd h (by simp)
  · next ls links heq =>
    have hsh : ∀ pr ∈ ls, ShapeP pr.2 :=
      foldE_inv _ (fun st => ∀ pr ∈ st.1, ShapeP pr.2)
        (fun s a s' hP hstep => processTriple_shape _ s a s' hstep hP)
        _ _ _ heq (by intro pr hpr; simp at hpr)
    by_cases hwrt : wrt = true
    · rw [if_pos hwrt] at h
      split at h
      · exact absurd h (by simp)
      · next d hd =>
        simp only [Except.ok.injEq] at h
        subst h
        intro pr hpr
        rcases mem_insertIdx _ _ _ _ hpr with hcase | hcase
        · subst hcase
          exact ShapeP_tree_singleton _ rfl rfl
        · exact hsh pr hcase
    · rw [if_neg hwrt] at h
      simp only [Except.ok.injEq] at h
      subst h
      exact hsh

/-- Every non-sentinel key of a successful walk satisfies the directory
predicate. -/
theorem walk_ok_keys (disk : Disk) (rootdir : Bytes) (f : Bytes → Bool)
    (wrt ref : Bool) (idx : Index)
    (h : walk_and_compute_sha1_from_directory disk rootdir f wrt ref = .ok idx) :
    ∀ pr ∈ idx, pr.1 ≠ ROOT_TREE_KEY → f pr.1 = true := by
  simp only [walk_and_compute_sha1_from_directory] at h
  split at h
  · exact absurd h (by simp)
  · next ls links heq =>
    have hks : ∀ pr ∈ ls, f pr.1 = true :=
      foldE_inv_mem _ (fun st => ∀ pr ∈ st.1, f pr.1 = true) _
        (fun s a s' ha hP hstep =>
          processTriple_keys _ s a s' f hstep (genDir_dir_ok _ _ _ a ha) hP)
        _ _ heq (by intro pr hpr; simp at hpr)
    by_cases hwrt : wrt = true
    · rw [if_pos hwrt] at h
      split at h
      · exact absurd h (by simp)
      · next d hd =>
        simp only [Except.ok.injEq] at h
        subst h
        intro pr hpr hne
        rcases mem_insertIdx _ _ _ _ hpr with hcase | hcase
        · subst hcase
          exact absurd rfl hne
        · exact hks pr hcase
    · rw [if_neg hwrt] at h
      simp only [Except.ok.injEq] at h
      subst h
      intro pr hpr _
      exact hks pr hpr

/-! ## Removal cascade lemmas -/

theorem mem_setAdd (s : List Bytes) (x q : Bytes) (h : q ∈ setAdd s x) :
    q ∈ s ∨ q = x := by
  unfold setAdd at h
  split at h
  · exact .inl h
  · rcases List.mem_append.mp h with h' | h'
    · exact .inl h'
    · exact .inr (List.mem_singleton.mp h')

/-- The first component of the removal loop body is exactly the pop of the
processed path: the parent-list filter keeps every entry (its predicate
compares an entry against a byte string) and re-stores the unchanged
list. -/
theorem removeStep_fst (f : Bytes → Bool) (st : Index × List Bytes)
    (path : Bytes) : (removeStep f st path).1 = popIdx st.1 path := by
  simp only [removeStep]
  split
  · rfl
  · split
    · next hd tl heq =>
      have hfilter : (hd :: tl).filter (fun e => entryNeqPath e path) = hd :: tl := by
        simp [entryNeqPath]
      simp only [hfilter]
      exact insertIdx_lookup_self _ _ _ heq
    · rfl

/-- The removal loop body on a path that is not a key: the dictionary is
unchanged, and the queue either stays as it is or gains the path's parent
when the predicate rejects it. -/
theorem removeStep_not_present (f : Bytes → Bool) (st : Index × List Bytes)
    (path : Bytes) (h : hasKey st.1 path = false) :
    (removeStep f st path).1 = st.1 ∧
      ((removeStep f st path).2 = st.2 ∨
       ((removeStep f st path).2 = setAdd st.2 (dirname path) ∧
        f (dirname path) = false)) := by
  have hnone : lookupIdx st.1 path = none := by
    unfold hasKey at h
    exact Option.not_isSome_iff_eq_none.mp (by simp [h])
  have hpop : popIdx st.1 path = st.1 := popIdx_eq_self _ _ h
  constructor
  · rw [removeStep_fst, hpop]
  · simp only [removeStep, hnone, hpop]
    split
    · next hcond =>
      right
      refine ⟨rfl, ?_⟩
      rcases hcond with ⟨hc1, _⟩
      simpa using hc1
    · split
      · next hd tl heq => left; rfl
      · left; rfl

theorem foldl_removeStep_length_le (f : Bytes → Bool) :
    ∀ (roots : List Bytes) (st : Index × List Bytes),
      ((roots.foldl (removeStep f) st).1).length ≤ st.1.length := by
  intro roots
  induction roots with
  | nil => intro st; exact Nat.le_refl _
  | cons r rest ih =>
    intro st
    simp only [List.foldl_cons]
    calc ((rest.foldl (removeStep f) (removeStep f st r)).1).length
        ≤ ((removeStep f st r).1).length := ih _
      _ = (popIdx st.1 r).length := by rw [removeStep_fst]
      _ ≤ st.1.length := popIdx_length_le _ _

theorem foldl_removeStep_subset (f : Bytes → Bool) :
    ∀ (roots : List Bytes) (st : Index × List Bytes) (pr : Bytes × List Entry),
      pr ∈ (roots.foldl (removeStep f) st).1 → pr ∈ st.1 := by
  intro roots
  induction roots with
  | nil => intro st pr h; exact h
  | cons r rest ih =>
    intro st pr h
    simp only [List.foldl_cons] at h
    have h1 := ih _ pr h
    rw [removeStep_fst] at h1
    exact mem_popIdx _ _ _ h1

theorem foldl_removeStep_eq_of_length (f : Bytes → Bool) :
    ∀ (roots : List Bytes) (st : Index × List Bytes),
      ((roots.foldl (removeStep f) st).1).length = st.1.length →
      (roots.foldl (removeStep f) st).1 = st.1 ∧
      (∀ q ∈ (roots.foldl (removeStep f) st).2,
        q ∈ st.2 ∨ ∃ r ∈ roots, q = dirname r ∧ f (dirname r) = false) := by
  intro roots
  induction roots with
  | nil =>
    intro st _
    exact ⟨rfl, fun q hq => .inl hq⟩
  | cons r rest ih =>
    intro st hlen
    simp only [List.foldl_cons] at hlen ⊢
    have hA := foldl_removeStep_length_le f rest (removeStep f st r)
    have hstep : ((removeStep f st r).1).length ≤ st.1.length := by
      rw [removeStep_fst]; exact popIdx_length_le _ _
    have hnk : hasKey st.1 r = false := by
      by_contra hk
      have hk' : hasKey st.1 r = true := by
        cases h' : hasKey st.1 r
        · exact absurd h' hk
        · rfl
      have := popIdx_length_lt st.1 r hk'
      rw [removeStep_fst] at hA
      omega
    obtain ⟨heq1, heq2⟩ := removeStep_not_present f st r hnk
    have hlen' : ((rest.foldl (removeStep f) (removeStep f st r)).1).length
        = ((removeStep f st r).1).length := by
      rw [heq1]; omega
    obtain ⟨ih1, ih2⟩ := ih (removeStep f st r) hlen'
    refine ⟨by rw [ih1, heq1], ?_⟩
    intro q hq
    rcases ih2 q hq with hq' | hq'
    · rcases heq2 with hc | hc
      · rw [hc] at hq'
        exact .inl hq'
      · rw [hc.1] at hq'
        rcases mem_setAdd _ _ _ hq' with h'' | h''
        · exact .inl h''
        · exact .inr ⟨r, List.mem_cons_self _ _, h'', h'' ▸ hc.2⟩
    · obtain ⟨r', hr', hq''⟩ := hq'
      exact .inr ⟨r', List.mem_cons_of_mem _ hr', hq''⟩

theorem removePaths_subset (f : Bytes → Bool) :
    ∀ (fuel : Nat) (objects : Index) (roots : List Bytes) (o' : Index),
      removePathsFromObjects f fuel objects roots = some o' →
      ∀ pr ∈ o', pr ∈ objects := by
  intro fuel
  induction fuel with
  | zero =>
    intro objects roots o' h pr hpr
    simp only [removePathsFromObjects] at h
    split at h
    · simp only [Option.some.injEq] at h
      subst h
      exact foldl_removeStep_subset f roots (objects, []) pr hpr
    · exact absurd h (by simp)
  | succ n ih =>
    intro objects roots o' h pr hpr
    simp only [removePathsFromObjects] at h
    split at h
    · simp only [Option.some.injEq] at h
      subst h
      exact foldl_removeStep_subset f roots (objects, []) pr hpr
    · exact foldl_removeStep_subset f roots (objects, []) pr (ih _ _ _ h pr hpr)

/-- A bound on the lengths of a list of paths. -/
def maxLenList (l : List Bytes) : Nat :=
  l.foldl (fun m p => max m p.length) 0

theorem foldl_max_le_acc : ∀ (l : List Bytes) (acc : Nat),
    acc ≤ l.foldl (fun m p => max m p.length) acc := by
  intro l
  induction l with
  | nil => intro acc; exact Nat.le_refl _
  | cons p rest ih =>
    intro acc
    simp only [List.foldl_cons]
    exact Nat.le_trans (Nat.le_max_left _ _) (ih _)

theorem foldl_max_mem : ∀ (l : List Bytes) (acc : Nat) (r : Bytes), r ∈ l →
    r.length ≤ l.foldl (fun m p => max m p.length) acc := by
  intro l
  induction l with
  | nil => intro acc r h; simp at h
  | cons p rest ih =>
    intro acc r h
    simp only [List.foldl_cons]
    rcases List.mem_cons.mp h with h' | h'
    · subst h'
      exact Nat.le_trans (Nat.le_max_right acc r.length) (foldl_max_le_acc rest _)
    · exact ih _ r h'

theorem le_maxLenList (l : List Bytes) (r : Bytes) (h : r ∈ l) :
    r.length ≤ maxLenList l :=
  foldl_max_mem l 0 r h

/-- Termination of the removal cascade for predicates accepting every
`dirname` fixed point: nested strong induction on the dictionary size and
on a bound for the lengths of the queued paths.  A recursion level either
pops at least one key (first measure) or leaves the dictionary unchanged
and queues only strictly shorter parents (second measure). -/
theorem removeTermAux (f : Bytes → Bool)
    (hf : ∀ p, dirname p = p → f p = true) :
    ∀ (n m : Nat) (objects : Index) (roots : List Bytes),
      objects.length ≤ n → (∀ r ∈ roots, r.length ≤ m) →
      ∃ fuel, (removePathsFromObjects f fuel objects roots).isSome = true := by
  intro n
  induction n using Nat.strong_induction_on with
  | _ n ihn =>
    intro m
    induction m using Nat.strong_induction_on with
    | _ m ihm =>
      intro objects roots hn hm
      have hlv : removeLevel f objects roots
          = roots.foldl (removeStep f) (objects, []) := rfl
      by_cases hempty : (removeLevel f objects roots).2.isEmpty = true
      · refine ⟨0, ?_⟩
        simp only [removePathsFromObjects, hempty, if_true, Option.isSome_some]
      · rcases Nat.lt_or_ge ((removeLevel f objects roots).1).length
            objects.length with hlt | hge
        · have hlt_n : ((removeLevel f objects roots).1).length < n :=
            Nat.lt_of_lt_of_le hlt hn
          obtain ⟨fuel, hfuel⟩ := ihn ((removeLevel f objects roots).1).length
            hlt_n (maxLenList (removeLevel f objects roots).2)
            (removeLevel f objects roots).1 (removeLevel f objects roots).2
            (Nat.le_refl _) (fun r hr => le_maxLenList _ r hr)
          refine ⟨fuel + 1, ?_⟩
          simp only [removePathsFromObjects, hempty, if_false, Bool.false_eq_true]
          exact hfuel
        · have heqlen : ((removeLevel f objects roots).1).length = objects.length := by
            have hle : ((removeLevel f objects roots).1).length ≤ objects.length := by
              rw [hlv]
              exact foldl_removeStep_length_le f roots (objects, [])
            omega
          obtain ⟨h1, h2⟩ := foldl_removeStep_eq_of_length f roots (objects, [])
            (by rw [← hlv]; exact heqlen)
          rw [← hlv] at h1 h2
          have hqlen : ∀ q ∈ (removeLevel f objects roots).2, q.length < m := by
            intro q hq
            rcases h2 q hq with h' | h'
            · simp at h'
            · obtain ⟨r, hr, hq1, hq2⟩ := h'
              have hne : dirname r ≠ r := by
                intro hfix
                rw [hfix] at hq2
                rw [hf r hfix] at hq2
                exact Bool.noConfusion hq2
              have := dirname_length_lt r hne
              have hrm := hm r hr
              rw [hq1]
              omega
          have hnonempty : ∃ q, q ∈ (removeLevel f objects roots).2 := by
            cases hq : (removeLevel f objects roots).2 with
            | nil => rw [hq] at hempty; simp at hempty
            | cons q qs => exact ⟨q, List.mem_cons_self _ _⟩
          have hm1 : 1 ≤ m := by
            obtain ⟨q, hq⟩ := hnonempty
            have := hqlen q hq
            omega
          obtain ⟨fuel, hfuel⟩ := ihm (m - 1) (by omega) objects
            (removeLevel f objects roots).2 hn
            (fun r hr => by have := hqlen r hr; omega)
          refine ⟨fuel + 1, ?_⟩
          simp only [removePathsFromObjects, hempty, if_false, Bool.false_eq_true]
          rw [show (removeLevel f objects roots).1 = objects from h1]
          exact hfuel

/-! ## Recompute-phase lemmas -/

/-- The closure property relative to a reference index: a tree entry's
path is a key, or was a key of the reference index. -/
def ClosureWithin (idx0 idx : Index) : Prop :=
  ∀ pr ∈ idx, ∀ e ∈ pr.2, e.type = GitType.TREE →
    hasKey idx e.path = true ∨ hasKey idx0 e.path = true

/-- Boolean form of `ClosureWithin` for concrete evaluation. -/
def closureExceptB (idx0 idx : Index) : Bool :=
  idx.all (fun pr => pr.2.all (fun e =>
    if e.type == GitType.TREE then hasKey idx e.path || hasKey idx0 e.path
    else true))

theorem closureExceptB_iff (idx0 idx : Index) :
    closureExceptB idx0 idx = true ↔ ClosureWithin idx0 idx := by
  unfold closureExceptB ClosureWithin
  simp only [List.all_eq_true]
  constructor
  · intro h pr hpr e he ht
    have := h pr hpr e he
    rw [if_pos (by simp [ht])] at this
    simpa using this
  · intro h pr hpr e he
    by_cases ht : e.type = GitType.TREE
    · rw [if_pos (by simp [ht])]
      simpa using h pr hpr e he ht
    · rw [if_neg (by simp [ht])]

theorem hasKey_insertIdx_present (idx : Index) (k : Bytes) (v : List Entry)
    (q : Bytes) (h : hasKey idx k = true) :
    hasKey (insertIdx idx k v) q = hasKey idx q := by
  rw [hasKey_insertIdx]
  by_cases hq : k = q
  · subst hq
    simp [h]
  · simp [hq]

theorem recomputeLevel_inv (idx0 objects : Index) (rd : Bytes) (o' : Index)
    (h : recomputeLevel objects rd = .ok o') (hcl : ClosureWithin idx0 objects) :
    ClosureWithin idx0 o' ∧ ∀ q, hasKey o' q = hasKey objects q := by
  unfold recomputeLevel at h
  split at h
  · exact absurd h (by simp)
  · next files hfiles =>
    split at h
    · exact absurd h (by simp)
    · next st hfold =>
      simp only [Except.ok.injEq] at h
      subst h
      have hrd : hasKey objects rd = true := by simp [hasKey, hfiles]
      have hinv := foldE_inv _ (fun st : Index × List Entry =>
          ClosureWithin idx0 st.1 ∧ (∀ q, hasKey st.1 q = hasKey objects q) ∧
          (∀ e ∈ st.2, e.type = GitType.TREE → hasKey st.1 e.path = true) ∧
          hasKey st.1 rd = true) ?step _ _ _ hfold
          ⟨hcl, fun _ => rfl, by simp, hrd⟩
      · exact ⟨hinv.1, hinv.2.1⟩
      case step =>
        intro s a s' hP hstep
        obtain ⟨hP1, hP2, hP3, hP4⟩ := hP
        split at hstep
        · next htree =>
          dsimp only at hstep
          split at hstep
          · exact absurd hstep (by simp)
          · next e' he' =>
            simp only [Except.ok.injEq] at hstep
            subst hstep
            obtain ⟨hpath, htype', _, hkey⟩ := compute_tree_metadata_ok _ _ _ he'
            have hkeys : ∀ q, hasKey (insertIdx s.1 rd (s.2 ++ [e'])) q
                = hasKey s.1 q := fun q => hasKey_insertIdx_present _ _ _ q hP4
            refine ⟨?_, fun q => (hkeys q).trans (hP2 q), ?_, by rw [hkeys]; exact hP4⟩
            · intro pr hpr e he ht
              rcases mem_insertIdx _ _ _ _ hpr with hcase | hcase
              · subst hcase
                rcases List.mem_append.mp (he : e ∈ s.2 ++ [e']) with h1 | h1
                · left
                  rw [hkeys]
                  exact hP3 e h1 ht
                · left
                  rw [List.mem_singleton.mp h1, hpath, hkeys]
                  exact hkey
              · rcases hP1 pr hcase e he ht with h1 | h1
                · left; rw [hkeys]; exact h1
                · right; exact h1
            · intro e he ht
              rcases List.mem_append.mp he with h1 | h1
              · rw [hkeys]; exact hP3 e h1 ht
              · rw [List.mem_singleton.mp h1, hpath, hkeys]
                exact hkey
        · next hnottree =>
          dsimp only at hstep
          simp only [Except.ok.injEq] at hstep
          subst hstep
          have hkeys : ∀ q, hasKey (insertIdx s.1 rd (s.2 ++ [a])) q
              = hasKey s.1 q := fun q => hasKey_insertIdx_present _ _ _ q hP4
          have hatype : a.type ≠ GitType.TREE := by
            intro hcontra
            exact hnottree (by simp [hcontra])
          refine ⟨?_, fun q => (hkeys q).trans (hP2 q), ?_, by rw [hkeys]; exact hP4⟩
          · intro pr hpr e he ht
            rcases mem_insertIdx _ _ _ _ hpr with hcase | hcase
            · subst hcase
              rcases List.mem_append.mp (he : e ∈ s.2 ++ [a]) with h1 | h1
              · left; rw [hkeys]; exact hP3 e h1 ht
              · exact absurd ht (List.mem_singleton.mp h1 ▸ hatype)
            · rcases hP1 pr hcase e he ht with h1 | h1
              · left; rw [hkeys]; exact h1
              · right; exact h1
          · intro e he ht
            rcases List.mem_append.mp he with h1 | h1
            · rw [hkeys]; exact hP3 e h1 ht
            · exact absurd ht (List.mem_singleton.mp h1 ▸ hatype)

theorem recomputeLoop_inv (up : Bytes) (idx0 : Index) :
    ∀ (fuel : Nat) (objects : Index) (rd : Bytes) (o' : Index),
      recomputeLoop up fuel objects rd = some (.ok o') →
      ClosureWithin idx0 objects →
      ClosureWithin idx0 o' ∧ ∀ q, hasKey o' q = hasKey objects q := by
  intro fuel
  induction fuel with
  | zero =>
    intro objects rd o' h hcl
    simp only [recomputeLoop] at h
    split at h
    · simp only [Option.some.injEq, Except.ok.injEq] at h
      subst h
      exact ⟨hcl, fun _ => rfl⟩
    · exact absurd h (by simp)
  | succ n ih =>
    intro objects rd o' h hcl
    simp only [recomputeLoop] at h
    split at h
    · simp only [Option.some.injEq, Except.ok.injEq] at h
      subst h
      exact ⟨hcl, fun _ => rfl⟩
    · split at h
      · exact absurd h (by simp)
      · next objs' hlevel =>
        obtain ⟨hcl', hkeys'⟩ := recomputeLevel_inv idx0 objects rd objs' hlevel hcl
        obtain ⟨hcl'', hkeys''⟩ := ih objs' (dirname rd) o' h hcl'
        exact ⟨hcl'', fun q => (hkeys'' q).trans (hkeys' q)⟩

theorem recompute_inv (idx0 : Index) (root deeper : Bytes) (objects o' : Index)
    (h : recompute_sha1_in_memory root deeper objects = some (.ok o'))
    (hcl : ClosureWithin idx0 objects) : ClosureWithin idx0 o' := by
  simp only [recompute_sha1_in_memory] at h
  split at h
  · exact absurd h (by simp)
  · exact absurd h (by simp)
  · next objs2 hloop =>
    obtain ⟨hcl2, hkeys2⟩ := recomputeLoop_inv _ idx0 _ _ _ _ hloop hcl
    split at h
    · exact absurd h (by simp)
    · next d hd =>
      split at h
      · exact absurd h (by simp)
      · exact absurd h (by simp)
      · next e0 rest hlook =>
        simp only [Option.some.injEq, Except.ok.injEq] at h
        subst h
        have hROOT : hasKey objs2 ROOT_TREE_KEY = true := by
          simp [hasKey, hlook]
        have horig : (ROOT_TREE_KEY, e0 :: rest) ∈ objs2 := lookupIdx_mem _ _ _ hlook
        intro pr hpr e he ht
        have hkeys3 : ∀ q, hasKey (insertIdx objs2 ROOT_TREE_KEY
            ({ e0 with sha1_git := d } :: rest)) q = hasKey objs2 q :=
          fun q => hasKey_insertIdx_present _ _ _ q hROOT
        rcases mem_insertIdx _ _ _ _ hpr with hcase | hcase
        · subst hcase
          rcases List.mem_cons.mp (he : e ∈ { e0 with sha1_git := d } :: rest)
            with h1 | h1
          · subst h1
            have ht0 : e0.type = GitType.TREE := ht
            rcases hcl2 _ horig e0 (List.mem_cons_self _ _) ht0 with h2 | h2
            · left; rw [hkeys3]; exact h2
            · right; exact h2
          · rcases hcl2 _ horig e (List.mem_cons_of_mem _ h1) ht with h2 | h2
            · left; rw [hkeys3]; exact h2
            · right; exact h2
        · rcases hcl2 pr hcase e he ht with h2 | h2
          · left; rw [hkeys3]; exact h2
          · right; exact h2

/-! ## Updater closure -/

theorem walk_closureWithin (idx0 : Index) (disk : Disk) (rootdir : Bytes)
    (f : Bytes → Bool) (wrt ref : Bool) (idx : Index)
    (h : walk_and_compute_sha1_from_directory disk rootdir f wrt ref = .ok idx) :
    ClosureWithin idx0 idx := by
  intro pr hpr e he ht
  exact .inl (walk_ok_closure disk rootdir f wrt ref idx h pr hpr e he ht)

/-- Closure of a successful incremental update, relative to the input
index: every tree entry of the result has its path as a key of the result,
or the path was a key of the input (removed by the cascade). -/
theorem update_closure (disk : Disk) (changes : List Change) (objects : Index)
    (f : Bytes → Bool) (ref : Bool) (fuel : Nat) (idx : Index)
    (hcl0 : ClosureWithin objects objects)
    (h : update_checksums_from disk changes objects f ref fuel = some (.ok idx)) :
    ClosureWithin objects idx := by
  simp only [update_checksums_from] at h
  split at h
  · exact absurd h (by simp)
  · exact absurd h (by simp)
  · next e0 erest hroot =>
    split at h
    · simp only [Option.some.injEq] at h
      exact walk_closureWithin objects disk _ f true ref idx h
    · next paths paths_to_remove hfp =>
      split at h
      · simp only [Option.some.injEq, Except.ok.injEq] at h
        subst h
        exact hcl0
      · split at h
        · exact absurd h (by simp)
        · next rootdir hcp =>
          split at h
          · exact absurd h (by simp)
          · next objects' hrem =>
            have hsub : ∀ pr ∈ objects', pr ∈ objects := by
              intro pr hpr
              split at hrem
              · simp only [Option.some.injEq] at hrem
                subst hrem
                exact hpr
              · exact removePaths_subset f fuel objects paths_to_remove
                  objects' hrem pr hpr
            split at h
            · simp only [Option.some.injEq] at h
              exact walk_closureWithin objects disk _ f true ref idx h
            · split at h
              · exact absurd h (by simp)
              · next hashes hwalk =>
                have hclm : ClosureWithin objects (updateIdx objects' hashes) := by
                  intro pr hpr e he ht
                  rcases mem_updateIdx _ _ _ hpr with hcase | hcase
                  · right
                    rcases hcl0 pr (hsub pr hcase) e he ht with h1 | h1
                    · exact h1
                    · exact h1
                  · left
                    have := walk_ok_closure disk rootdir f false ref hashes
                      hwalk pr hcase e he ht
                    exact hasKey_updateIdx_right _ _ _ this
                exact recompute_inv objects _ _ _ idx h hclm

/-! ## First-pass lemmas -/

/-- A change whose parent equals the root makes the first round trip abort
(git.py lines 473-478). -/
theorem firstPass_root_adjacent (root : Bytes) :
    ∀ (changes : List Change) (acc1 acc2 : List Bytes),
      (∃ c ∈ changes, dirname c.path = root) →
      firstPass root changes acc1 acc2 = .inl () := by
  intro changes
  induction changes with
  | nil =>
    intro acc1 acc2 h
    obtain ⟨c, hc, _⟩ := h
    simp at hc
  | cons c rest ih =>
    intro acc1 acc2 h
    by_cases hd : dirname c.path = root
    · simp [firstPass, hd]
    · have hbeq : (dirname c.path == root) = false := by simp [hd]
      simp only [firstPass, hbeq, Bool.false_eq_true, if_false]
      apply ih
      obtain ⟨c', hc', he'⟩ := h
      rcases List.mem_cons.mp hc' with h1 | h1
      · exact absurd (h1 ▸ he') hd
      · exact ⟨c', h1, he'⟩

/-- The first round trip never inspects the action beyond comparing it
with the string D: change lists with equal paths and equal
is-it-a-deletion patterns are processed identically. -/
theorem firstPass_congr (root : Bytes) :
    ∀ (c1 c2 : List Change) (acc1 acc2 : List Bytes),
      c1.map (fun c => c.path) = c2.map (fun c => c.path) →
      c1.map (fun c => c.action == actD) = c2.map (fun c => c.action == actD) →
      firstPass root c1 acc1 acc2 = firstPass root c2 acc1 acc2 := by
  intro c1
  induction c1 with
  | nil =>
    intro c2 acc1 acc2 h1 _
    cases c2 with
    | nil => rfl
    | cons c' rest' => simp at h1
  | cons c rest ih =>
    intro c2 acc1 acc2 h1 h2
    cases c2 with
    | nil => simp at h1
    | cons c' rest' =>
      simp only [List.map_cons, List.cons.injEq] at h1 h2
      obtain ⟨hp, hps⟩ := h1
      obtain ⟨ha, has⟩ := h2
      simp only [firstPass, hp, ha]
      by_cases hd : dirname c'.path = root
      · simp [hd]
      · have hbeq : (dirname c'.path == root) = false := by simp [hd]
        simp only [hbeq, Bool.false_eq_true, if_false]
        exact ih rest' _ _ hps has

/-! ## `commonpath` error lemmas -/

theorem commonpath_mixed (paths : List Bytes) (p q : Bytes)
    (hp : p ∈ paths) (hq : q ∈ paths)
    (habs : p.take 1 = [sepC]) (hrel : q.take 1 ≠ [sepC]) :
    commonpath paths = .error .valueErrorMixedPaths := by
  cases paths with
  | nil => simp at hp
  | cons p0 prest =>
    have htrue : true ∈ ((p0 :: prest).map (fun r => r.take 1 == [sepC])).dedup := by
      rw [List.mem_dedup]
      exact List.mem_map.mpr ⟨p, hp, by simp [habs]⟩
    have hfalse : false ∈ ((p0 :: prest).map (fun r => r.take 1 == [sepC])).dedup := by
      rw [List.mem_dedup]
      refine List.mem_map.mpr ⟨q, hq, ?_⟩
      simp only [beq_eq_false_iff_ne, ne_eq]
      exact hrel
    have hlen : ((p0 :: prest).map (fun r => r.take 1 == [sepC])).dedup.length ≠ 1 := by
      intro hlen1
      obtain ⟨x, hx⟩ := List.length_eq_one.mp hlen1
      rw [hx] at htrue hfalse
      simp only [List.mem_singleton] at htrue hfalse
      rw [← htrue] at hfalse
      exact Bool.noConfusion hfalse
    simp only [commonpath, hlen, if_pos, ne_eq, not_false_iff, if_true]

/-! ## Concrete scenarios -/

/-- A disk with a directory chain in which the middle directory
`/r/x/a` will be rejected by the filter below. -/
def disk1 : Disk := [
  (pb ("/r"), .dir),
  (pb ("/r/x"), .dir),
  (pb ("/r/x/a"), .dir),
  (pb ("/r/x/a/b"), .dir),
  (pb ("/r/x/a/b/f.txt"), .file (pb ("foo")) false)
]

/-- The same disk after an in-place modification of the deep file. -/
def disk1b : Disk := [
  (pb ("/r"), .dir),
  (pb ("/r/x"), .dir),
  (pb ("/r/x/a"), .dir),
  (pb ("/r/x/a/b"), .dir),
  (pb ("/r/x/a/b/f.txt"), .file (pb ("foobar")) false)
]

/-- A directory predicate rejecting exactly `/r/x/a`. -/
def f1 (p : Bytes) : Bool := ¬(p == pb ("/r/x/a"))

def idx1 : Index :=
  extractOk (walk_and_compute_sha1_from_directory disk1 (pb ("/r")) f1 true false)

def changes1 : List Change :=
  [{ path := pb ("/r/x/a/b/f.txt"), action := pb ("M") }]

/-- A parent whose entry list refers to the removed path `/d/s`. -/
def c2entry : Entry :=
  { name := pb ("s"), perms := .TREE, type := .TREE, path := pb ("/d/s"),
    sha1_git := .tree [] }

def c2objects : Index := [(pb ("/d"), [c2entry]), (pb ("/d/s"), [])]

/-- A disk with a symlink, an executable file and a subdirectory, all
accepted by the predicate. -/
def disk2 : Disk := [
  (pb ("/r"), .dir),
  (pb ("/r/ln"), .link (pb ("f.txt"))),
  (pb ("/r/f.txt"), .file (pb ("bar")) true),
  (pb ("/r/sub"), .dir),
  (pb ("/r/sub/g"), .file (pb ("g")) false)
]

/-- The accept-all predicate. -/
def fT (_p : Bytes) : Bool := true

def idx2 : Index :=
  extractOk (walk_and_compute_sha1_from_directory disk2 (pb ("/r")) fT true false)

def c9es : List Entry := (lookupIdx idx2 (pb ("/r"))).getD []

/-- A fully accepted three-level disk on which the incremental update
succeeds. -/
def disk3 : Disk := [
  (pb ("/r"), .dir),
  (pb ("/r/a"), .dir),
  (pb ("/r/a/b"), .dir),
  (pb ("/r/a/b/f.txt"), .file (pb ("foo")) false)
]

def idx3 : Index :=
  extractOk (walk_and_compute_sha1_from_directory disk3 (pb ("/r")) fT true false)

def changes3 : List Change :=
  [{ path := pb ("/r/a/b/f.txt"), action := pb ("M") }]

def changes6 : List Change :=
  [{ path := pb ("/r/a"), action := pb ("M") }]

def changes7 : List Change :=
  [{ path := pb ("/a/b/c"), action := pb ("M") },
   { path := pb ("x/y/z"), action := pb ("M") }]

def changesX : List Change :=
  [{ path := pb ("/r/a/b/f.txt"), action := pb ("X") }]

def entryHead : List Entry → Entry
  | [] => { name := [], perms := .BLOB, type := .BLOB, path := [],
            sha1_git := .blob [] }
  | e :: _ => e

def c6e0 : Entry := entryHead ((lookupIdx idx3 ROOT_TREE_KEY).getD [])

def c6rest : List Entry := ((lookupIdx idx3 ROOT_TREE_KEY).getD []).tail

/-! ## Claims -/

/-- Claim C2 (code_bug): the spec says that during cascading removal, a
removed path's entry is filtered out of the entry list of a parent that
still satisfies the predicate and is still a key.  The code's filter
predicate compares each entry dictionary against the path byte string
(git.py line 432), which never matches, so the stale entry survives: after
removing `/d/s` with an accept-all predicate, the parent `/d` is still a
key and its entry list still contains the entry whose path is `/d/s`. -/
theorem claim_C2_stale_entry :
    removePathsFromObjects fT 5 c2objects [pb ("/d/s")]
      = some [(pb ("/d"), [c2entry])] := rfl

/-- Claim C3, counterexample: with the predicate rejecting `/r/x/a`, the
walk of `/r` still indexes the descendant `/r/x/a/b` (whose own path
satisfies the predicate), although the claim says every descendant of a
rejected directory is absent; the rejected directory itself is absent. -/
theorem claim_C3_counterexample :
    (match walk_and_compute_sha1_from_directory disk1 (pb ("/r")) f1 true false with
      | .ok idx => hasKey idx (pb ("/r/x/a/b")) && !(hasKey idx (pb ("/r/x/a")))
          && !(f1 (pb ("/r/x/a")))
      | .error _ => false) = true := rfl

/-- Claim C3, amended: a directory for which the predicate returns false
is absent from the index returned by `walk_and_compute_sha1_from_directory`
(every non-sentinel key satisfies the predicate), but its descendants are
not all skipped: because the walk is bottom-up, a descendant whose own
path satisfies the predicate is still walked and indexed. -/
theorem claim_C3_amended (disk : Disk) (rootdir : Bytes) (dir_ok_fn : Bytes → Bool)
    (wrt ref : Bool) (idx : Index) (p : Bytes) (es : List Entry)
    (h : walk_and_compute_sha1_from_directory disk rootdir dir_ok_fn wrt ref = .ok idx)
    (hp : p ≠ ROOT_TREE_KEY) (hlk : lookupIdx idx p = some es) :
    dir_ok_fn p = true :=
  walk_ok_keys disk rootdir dir_ok_fn wrt ref idx h (p, es)
    (lookupIdx_mem idx p es hlk) hp

def c3es : List Entry := (lookupIdx idx1 (pb ("/r/x/a/b"))).getD []

theorem claim_C3_amended_witness : f1 (pb ("/r/x/a/b")) = true :=
  claim_C3_amended disk1 (pb ("/r")) f1 true false idx1 (pb ("/r/x/a/b"))
    c3es rfl (by decide) rfl

/-- Divergence of the embedded cascade: every amount of fuel is
exhausted, which is how the unbounded recursion of the source failing to
reach an empty queue is rendered in the embedding. -/
def cascadeDiverges (dir_ok_fn : Bytes → Bool) (objects : Index)
    (rootpaths : List Bytes) : Prop :=
  ∀ fuel, removePathsFromObjects dir_ok_fn fuel objects rootpaths = none

/-- The cascade diverges on the dirname fixed point `/` when the
predicate rejects it. -/
theorem removePaths_slash_diverges :
    ∀ n, removePathsFromObjects (fun _ => false) n [] [pb ("/")] = none := by
  intro n
  induction n with
  | zero => rfl
  | succ k ih => exact ih

/-- Claim C5, counterexample: the cascade does not terminate on every
finite index, removal set and predicate.  With the constantly false
predicate and the removal set containing `/a/b`, the cascade queues `/a`,
then `/`, then `/` again forever (the dirname of `/` is `/` and the
predicate keeps rejecting it): no amount of fuel makes it finish. -/
theorem claim_C5_counterexample :
    cascadeDiverges (fun _ => false) [] [pb ("/a/b")] := by
  intro fuel
  rcases fuel with _ | _ | k
  · rfl
  · rfl
  · exact removePaths_slash_diverges k

/-- Claim C5, amended: cascading removal terminates on every finite index
and finite removal set provided the filter predicate accepts every
dirname fixed point (such as the paths the empty string and `/`, at which
the upward climb of the source would otherwise spin forever): some fuel
makes the embedded cascade return. -/
theorem claim_C5_amended (dir_ok_fn : Bytes → Bool)
    (hf : ∀ p, dirname p = p → dir_ok_fn p = true)
    (objects : Index) (rootpaths : List Bytes) :
    ∃ fuel, (removePathsFromObjects dir_ok_fn fuel objects rootpaths).isSome = true :=
  removeTermAux dir_ok_fn hf objects.length (maxLenList rootpaths) objects rootpaths
    (Nat.le_refl _) (fun r hr => le_maxLenList _ r hr)

theorem claim_C5_amended_witness :
    ∃ fuel, (removePathsFromObjects fT fuel c2objects [pb ("/d/s")]).isSome = true :=
  claim_C5_amended fT (fun _ _ => rfl) c2objects [pb ("/d/s")]

/-- Claim C1 (code_bug): the spec's incremental/full equivalence fails on
the code.  With the filter rejecting `/r/x/a` but accepting its child
`/r/x/a/b`, the full walk of `/r` succeeds and indexes `/r/x/a/b` without
indexing `/r/x/a`; a change set consisting of one modification of
`/r/x/a/b/f.txt` (whose parent is not the root) then makes
`update_checksums_from` raise `KeyError` on `/r/x/a` inside
`recompute_sha1_in_memory` (git.py line 337, the ancestor level is not a
key) instead of returning an index whose sentinel digest matches a full
walk of the mutated filesystem. -/
theorem claim_C1_keyerror :
    walk_and_compute_sha1_from_directory disk1 (pb ("/r")) f1 true false
        = .ok idx1
    ∧ update_checksums_from disk1b changes1 idx1 f1 false 100
        = some (.error (.keyError (pb ("/r/x/a"))))
    ∧ (walk_and_compute_sha1_from_directory disk1b (pb ("/r")) f1 true
        false).isOk = true :=
  ⟨rfl, rfl, rfl⟩

/-- Claim C4: closure property.  For every index returned successfully by
the walker, every tree entry's source path is a key of the index; for
every index returned successfully by the incremental updater from an
input index satisfying the closure property, every tree entry's source
path is a key of the result or was a key of the input index (the only way
a key disappears during an update is the intentional cascading
removal). -/
theorem claim_C4_closure :
    (∀ (disk : Disk) (rootdir : Bytes) (dir_ok_fn : Bytes → Bool)
        (wrt ref : Bool) (idx : Index),
        walk_and_compute_sha1_from_directory disk rootdir dir_ok_fn wrt ref
          = .ok idx →
        closureExceptB idx idx = true)
    ∧ (∀ (disk : Disk) (changes : List Change) (objects : Index)
        (dir_ok_fn : Bytes → Bool) (ref : Bool) (fuel : Nat) (idx : Index),
        closureExceptB objects objects = true →
        update_checksums_from disk changes objects dir_ok_fn ref fuel
          = some (.ok idx) →
        closureExceptB objects idx = true) := by
  constructor
  · intro disk rootdir dir_ok_fn wrt ref idx h
    rw [closureExceptB_iff]
    intro pr hpr e he ht
    exact .inl (walk_ok_closure disk rootdir dir_ok_fn wrt ref idx h pr hpr e he ht)
  · intro disk changes objects dir_ok_fn ref fuel idx hcl0 h
    rw [closureExceptB_iff]
    exact update_closure disk changes objects dir_ok_fn ref fuel idx
      ((closureExceptB_iff objects objects).mp hcl0) h

theorem claim_C4_closure_witness :
    closureExceptB idx3 idx3 = true ∧
    closureExceptB idx3
      (extractOkU (update_checksums_from disk3 changes3 idx3 fT false 10)) = true :=
  ⟨claim_C4_closure.1 disk3 (pb ("/r")) fT true false idx3 rfl,
   claim_C4_closure.2 disk3 changes3 idx3 fT false 10
     (extractOkU (update_checksums_from disk3 changes3 idx3 fT false 10)) rfl rfl⟩

/-- Claim C6: a change descriptor whose path's direct parent equals the
root stored in the sentinel entry makes `update_checksums_from` return
exactly the result of a full walk of the root with the same filter and
prune setting; the first round trip aborts before any removal, merge or
in-memory recomputation touches the index. -/
theorem claim_C6_root_adjacent (disk : Disk) (changes : List Change)
    (objects : Index) (dir_ok_fn : Bytes → Bool) (ref : Bool) (fuel : Nat)
    (e0 : Entry) (erest : List Entry)
    (hroot : lookupIdx objects ROOT_TREE_KEY = some (e0 :: erest))
    (hex : ∃ c ∈ changes, dirname c.path = stripTrailingSep e0.path) :
    update_checksums_from disk changes objects dir_ok_fn ref fuel
      = some (walk_and_compute_sha1_from_directory disk
          (stripTrailingSep e0.path) dir_ok_fn true ref) := by
  simp only [update_checksums_from, hroot]
  rw [firstPass_root_adjacent (stripTrailingSep e0.path) changes [] [] hex]

theorem claim_C6_root_adjacent_witness :
    update_checksums_from disk3 changes6 idx3 fT false 0
      = some (walk_and_compute_sha1_from_directory disk3
          (stripTrailingSep c6e0.path) fT true false) :=
  claim_C6_root_adjacent disk3 changes6 idx3 fT false 0 c6e0 c6rest rfl
    ⟨{ path := pb ("/r/a"), action := pb ("M") }, List.mem_cons_self _ _, rfl⟩

/-- Claim C7: the common-prefix computation aborts immediately with a
`ValueError` on an empty sequence of paths and on a sequence mixing
absolute and relative paths; when `update_checksums_from` accumulates
mixed parents, the error is raised before the removal, merge and
recompute steps, so the update returns it as is and the index is not
touched. -/
theorem claim_C7_commonpath_errors :
    commonpath [] = .error .valueErrorEmptySeq
    ∧ (∀ (paths : List Bytes) (p q : Bytes), p ∈ paths → q ∈ paths →
        p.take 1 = [sepC] → q.take 1 ≠ [sepC] →
        commonpath paths = .error .valueErrorMixedPaths)
    ∧ (∀ (disk : Disk) (changes : List Change) (objects : Index)
        (dir_ok_fn : Bytes → Bool) (ref : Bool) (fuel : Nat)
        (e0 : Entry) (erest : List Entry) (paths rm : List Bytes) (p q : Bytes),
        lookupIdx objects ROOT_TREE_KEY = some (e0 :: erest) →
        firstPass (stripTrailingSep e0.path) changes [] [] = .inr (paths, rm) →
        p ∈ paths → q ∈ paths → p.take 1 = [sepC] → q.take 1 ≠ [sepC] →
        update_checksums_from disk changes objects dir_ok_fn ref fuel
          = some (.error .valueErrorMixedPaths)) := by
  refine ⟨rfl, fun paths p q hp hq habs hrel =>
    commonpath_mixed paths p q hp hq habs hrel, ?_⟩
  intro disk changes objects dir_ok_fn ref fuel e0 erest paths rm p q
    hroot hfp hp hq habs hrel
  simp only [update_checksums_from, hroot, hfp]
  have hne : paths.isEmpty = false := by
    cases paths with
    | nil => simp at hp
    | cons a as => rfl
  rw [hne]
  simp only [Bool.false_eq_true, if_false,
    commonpath_mixed paths p q hp hq habs hrel]

theorem claim_C7_commonpath_errors_witness :
    update_checksums_from disk3 changes7 idx3 fT false 0
      = some (.error .valueErrorMixedPaths) :=
  claim_C7_commonpath_errors.2.2 disk3 changes7 idx3 fT false 0 c6e0 c6rest
    [pb ("/a/b"), pb ("x/y")] [] (pb ("/a/b")) (pb ("x/y")) rfl rfl
    (by decide) (by decide) (by decide) (by decide)

/-- Claim C8: determinism of the walker.  The embedded
`walk_and_compute_sha1_from_directory` is a pure function of the disk,
the root, the filter and the options: two successful runs on equal inputs
return indexes that are equal, digest bytes included. -/
theorem claim_C8_determinism (disk : Disk) (rootdir : Bytes)
    (dir_ok_fn : Bytes → Bool) (wrt ref : Bool) (idx1 idx2 : Index)
    (h1 : walk_and_compute_sha1_from_directory disk rootdir dir_ok_fn wrt ref
      = .ok idx1)
    (h2 : walk_and_compute_sha1_from_directory disk rootdir dir_ok_fn wrt ref
      = .ok idx2) : idx1 = idx2 := by
  rw [h1] at h2
  exact (Except.ok.injEq .. ▸ h2 : idx1 = idx2)

theorem claim_C8_determinism_witness : idx3 = idx3 :=
  claim_C8_determinism disk3 (pb ("/r")) fT true false idx3 idx3 rfl rfl

/-- Claim C9: for every non-sentinel key of a successful walk, the stored
entry list is ordered with the symlink entries first, then the non-symlink
file entries, then the subdirectory tree entries. -/
theorem claim_C9_entry_order (disk : Disk) (rootdir : Bytes)
    (dir_ok_fn : Bytes → Bool) (wrt ref : Bool) (idx : Index)
    (p : Bytes) (es : List Entry)
    (h : walk_and_compute_sha1_from_directory disk rootdir dir_ok_fn wrt ref
      = .ok idx)
    (_hp : p ≠ ROOT_TREE_KEY) (hlk : lookupIdx idx p = some es) :
    ShapeP es :=
  walk_ok_shape disk rootdir dir_ok_fn wrt ref idx h (p, es)
    (lookupIdx_mem idx p es hlk)

theorem claim_C9_entry_order_witness : ShapeP c9es :=
  claim_C9_entry_order disk2 (pb ("/r")) fT true false idx2 (pb ("/r")) c9es
    rfl (by decide) rfl

/-- Claim C10: `update_checksums_from` never validates the action field:
the outcome depends on the change list only through the paths and through
whether each action equals the string D, so a change carrying any non-D
action (even one outside A, M, D) is processed exactly like a
modification, with its parent accumulated and nothing removed, and no
error is raised because of the action. -/
theorem claim_C10_action_ignored (disk : Disk) (objects : Index)
    (dir_ok_fn : Bytes → Bool) (ref : Bool) (fuel : Nat)
    (c1 c2 : List Change)
    (hpaths : c1.map (fun c => c.path) = c2.map (fun c => c.path))
    (hacts : c1.map (fun c => c.action == actD)
      = c2.map (fun c => c.action == actD)) :
    update_checksums_from disk c1 objects dir_ok_fn ref fuel
      = update_checksums_from disk c2 objects dir_ok_fn ref fuel := by
  cases hroot : lookupIdx objects ROOT_TREE_KEY with
  | none => simp [update_checksums_from, hroot]
  | some l =>
    cases l with
    | nil => simp [update_checksums_from, hroot]
    | cons e0 erest =>
      simp only [update_checksums_from, hroot]
      rw [firstPass_congr (stripTrailingSep e0.path) c1 c2 [] [] hpaths hacts]

theorem claim_C10_action_ignored_witness :
    update_checksums_from disk3 changesX idx3 fT false 10
      = update_checksums_from disk3 changes3 idx3 fT false 10 :=
  claim_C10_action_ignored disk3 idx3 fT false 10 changesX changes3 rfl rfl

end SwhGit
